import Mathlib

/-!
Verification of the CustomVisionTools repository (three Python scripts —
download.py, augment.py, upload.py — sharing the helper module
helpers/augmentation.py) against its natural-language specification.

Modelling conventions:
* Python floats are modelled as exact rationals (ℚ).  All arithmetic the
  scripts perform on coordinates is elementary (+, -, *, /), so the rational
  model is the intended real-number semantics of the code; statements about
  floating-point tolerance become statements about exact equality or about
  explicit error bounds.
* Python lists are Lean `List`s; `list.index`, list indexing and other
  partial operations are modelled with `Option` where the Python code can
  raise.
* File contents are modelled at line granularity (a file is the list of its
  lines); numeric fields written with Python `repr` round-trip exactly
  through text, so a written YOLO line is modelled by the record of its
  numeric fields.
-/

/-- Rounding to the nearest integer, halves to even.  Modelled from numpy's
`np.round`, which is what imgaug's `BoundingBox.x1_int`, `y1_int`, `x2_int`,
`y2_int` accessors apply to the stored float coordinates
(`int(np.round(self.x1))` and so on). -/
def np_round (x : ℚ) : ℤ :=
  if x - ⌊x⌋ < 1/2 then ⌊x⌋
  else if 1/2 < x - ⌊x⌋ then ⌊x⌋ + 1
  else if ⌊x⌋ % 2 = 0 then ⌊x⌋ else ⌊x⌋ + 1

theorem abs_np_round_sub_le (x : ℚ) : |(np_round x : ℚ) - x| ≤ 1/2 := by
  have h0 : (0:ℚ) ≤ x - ⌊x⌋ := by have := Int.floor_le x; linarith
  have h1 : x - ⌊x⌋ < 1 := by have := Int.lt_floor_add_one x; linarith
  simp only [np_round]
  split_ifs <;> (rw [abs_le]; constructor <;> push_cast <;> linarith)

theorem np_round_intCast (a : ℤ) : np_round (a : ℚ) = a := by
  simp [np_round, Int.floor_intCast]

/-- Modelled from `helpers/augmentation.py`, class `ImageDataRegion`:
a tagged region of an image with normalized (0..1) top-left corner and
extent. -/
structure ImageDataRegion where
  tag_name : String
  left : ℚ
  top : ℚ
  width : ℚ
  height : ℚ
deriving DecidableEq

/-- Modelled from imgaug's `BoundingBox`: a pixel-space box given by its two
corner coordinates and a label.  The constructor stores the float (here:
rational) coordinates unchanged. -/
structure BoundingBox where
  x1 : ℚ
  y1 : ℚ
  x2 : ℚ
  y2 : ℚ
  label : String
deriving DecidableEq

/-- Modelled from `ImageDataRegion.to_imgaug` (helpers/augmentation.py
lines 66-72): scales the normalized corner and extent by the image
dimensions to produce the pixel rectangle. -/
def ImageDataRegion.to_imgaug (r : ImageDataRegion) (image_width image_height : ℚ) : BoundingBox :=
  { x1 := r.left * image_width
  , y1 := r.top * image_height
  , x2 := (r.left + r.width) * image_width
  , y2 := (r.top + r.height) * image_height
  , label := r.tag_name }

/-- Modelled from `ImageDataRegion.from_imgaug` (helpers/augmentation.py
lines 56-64): divides the integer pixel coordinates (`bb.x1_int` etc., which
round the stored floats to whole pixels via `np.round`) back by the image
dimensions. -/
def ImageDataRegion.from_imgaug (bb : BoundingBox) (image_width image_height : ℚ) : ImageDataRegion :=
  { tag_name := bb.label
  , left := (np_round bb.x1 : ℚ) / image_width
  , top := (np_round bb.y1 : ℚ) / image_height
  , width := ((np_round bb.x2 - np_round bb.x1 : ℤ) : ℚ) / image_width
  , height := ((np_round bb.y2 - np_round bb.y1 : ℤ) : ℚ) / image_height }

/-- C1 counterexample: for the admissible normalized region
(left, top, width, height) = (2/5, 2/5, 1/5, 1/5) and image dimensions
1 × 1 (positive integers), the to_imgaug/from_imgaug round trip returns
left = 0: the error is exactly 2/5, a whole-pixel quantization effect, not a
floating-point rounding effect, so the round trip does not reproduce the
original coordinates within epsilon tolerance. -/
theorem from_imgaug_to_imgaug_not_inverse :
    (ImageDataRegion.from_imgaug
      (ImageDataRegion.to_imgaug ⟨"person", 2/5, 2/5, 1/5, 1/5⟩ 1 1) 1 1).left = 0
    ∧ (⟨"person", 2/5, 2/5, 1/5, 1/5⟩ : ImageDataRegion).left = 2/5
    ∧ |(0 : ℚ) - 2/5| = 2/5 := by
  refine ⟨?_, rfl, by norm_num⟩
  norm_num [ImageDataRegion.from_imgaug, ImageDataRegion.to_imgaug, np_round]

/-- C1 (amended): for every normalized region with coordinates in [0,1] and
positive integer image dimensions, the to_imgaug/from_imgaug round trip
reproduces the normalized coordinates within half-pixel tolerance: left and
top to within 1/(2·dimension) and width and height to within 1/dimension,
and it preserves the tag name. -/
theorem from_imgaug_to_imgaug_roundtrip_half_pixel (tag : String) (l t w h : ℚ)
    (W H : ℕ) (hW : 0 < W) (hH : 0 < H)
    (hl0 : 0 ≤ l) (hl1 : l ≤ 1) (ht0 : 0 ≤ t) (ht1 : t ≤ 1)
    (hw0 : 0 ≤ w) (hw1 : w ≤ 1) (hh0 : 0 ≤ h) (hh1 : h ≤ 1) :
    |(ImageDataRegion.from_imgaug
        (ImageDataRegion.to_imgaug ⟨tag, l, t, w, h⟩ W H) W H).left - l| ≤ 1/(2*W)
    ∧ |(ImageDataRegion.from_imgaug
        (ImageDataRegion.to_imgaug ⟨tag, l, t, w, h⟩ W H) W H).top - t| ≤ 1/(2*H)
    ∧ |(ImageDataRegion.from_imgaug
        (ImageDataRegion.to_imgaug ⟨tag, l, t, w, h⟩ W H) W H).width - w| ≤ 1/W
    ∧ |(ImageDataRegion.from_imgaug
        (ImageDataRegion.to_imgaug ⟨tag, l, t, w, h⟩ W H) W H).height - h| ≤ 1/H
    ∧ (ImageDataRegion.from_imgaug
        (ImageDataRegion.to_imgaug ⟨tag, l, t, w, h⟩ W H) W H).tag_name = tag := by
  have hWQ : (0:ℚ) < (W:ℚ) := by exact_mod_cast hW
  have hHQ : (0:ℚ) < (H:ℚ) := by exact_mod_cast hH
  have key : ∀ (D : ℚ), 0 < D → ∀ (a : ℚ),
      |(np_round (a * D) : ℚ) / D - a| ≤ 1/(2*D) := by
    intro D hD a
    have hD0 : (D:ℚ) ≠ 0 := ne_of_gt hD
    have heq : (np_round (a * D) : ℚ) / D - a = ((np_round (a * D) : ℚ) - a * D) / D := by
      field_simp
      ring
    rw [heq, abs_div, abs_of_pos hD]
    have hb := abs_np_round_sub_le (a * D)
    calc |(np_round (a * D) : ℚ) - a * D| / D ≤ (1/2) / D := (div_le_div_right hD).mpr hb
      _ = 1/(2*D) := by rw [div_div]
  have keyWH : ∀ (D : ℚ), 0 < D → ∀ (a b : ℚ),
      |((np_round (b * D) - np_round (a * D) : ℤ) : ℚ) / D - (b - a)| ≤ 1/D := by
    intro D hD a b
    have hD0 : (D:ℚ) ≠ 0 := ne_of_gt hD
    have heq : ((np_round (b * D) - np_round (a * D) : ℤ) : ℚ) / D - (b - a)
        = (((np_round (b * D) : ℚ) - b * D) - ((np_round (a * D) : ℚ) - a * D)) / D := by
      push_cast
      field_simp
      ring
    rw [heq, abs_div, abs_of_pos hD]
    have hb := abs_np_round_sub_le (b * D)
    have ha := abs_np_round_sub_le (a * D)
    have htri : |((np_round (b * D) : ℚ) - b * D) - ((np_round (a * D) : ℚ) - a * D)|
        ≤ |(np_round (b * D) : ℚ) - b * D| + |(np_round (a * D) : ℚ) - a * D| :=
      abs_sub _ _
    calc |((np_round (b * D) : ℚ) - b * D) - ((np_round (a * D) : ℚ) - a * D)| / D
        ≤ 1 / D := by
          apply (div_le_div_right hD).mpr
          linarith
      _ = 1/D := rfl
  refine ⟨?_, ?_, ?_, ?_, rfl⟩
  · simpa [ImageDataRegion.from_imgaug, ImageDataRegion.to_imgaug] using key W hWQ l
  · simpa [ImageDataRegion.from_imgaug, ImageDataRegion.to_imgaug] using key H hHQ t
  · have := keyWH W hWQ l (l + w)
    simpa [ImageDataRegion.from_imgaug, ImageDataRegion.to_imgaug] using this
  · have := keyWH H hHQ t (t + h)
    simpa [ImageDataRegion.from_imgaug, ImageDataRegion.to_imgaug] using this

/-- C1 amended-claim witness at the concrete region (1/2, 1/2, 1/4, 1/4)
on a 2 × 2 image. -/
theorem from_imgaug_to_imgaug_roundtrip_half_pixel_witness :
    |(ImageDataRegion.from_imgaug
        (ImageDataRegion.to_imgaug ⟨"a", 1/2, 1/2, 1/4, 1/4⟩ (2:ℕ) (2:ℕ)) (2:ℕ) (2:ℕ)).left - 1/2|
      ≤ 1/(2*(2:ℕ)) :=
  (from_imgaug_to_imgaug_roundtrip_half_pixel "a" (1/2) (1/2) (1/4) (1/4) 2 2
    (by norm_num) (by norm_num) (by norm_num) (by norm_num) (by norm_num) (by norm_num)
    (by norm_num) (by norm_num) (by norm_num) (by norm_num)).1

/-- Modelled from a parsed line of a YOLO data file:
`<object-class> <x-center> <y-center> <width> <height>`.  The class index is
an `Int` (Python `int(...)` may produce negative values); the four numeric
fields are the exact values of the floats on the line (Python float text
round-trips exactly through `repr`). -/
structure YoloLine where
  cls : ℤ
  center_x : ℚ
  center_y : ℚ
  width : ℚ
  height : ℚ
deriving DecidableEq

/-- Modelled from Python list subscription `l[i]`: negative indices count
from the end, and an out-of-range index raises IndexError (here: `none`). -/
def pyGetItem {α : Type} (l : List α) (i : ℤ) : Option α :=
  if 0 ≤ i then l.get? i.toNat
  else if (-i).toNat ≤ l.length then l.get? (l.length - (-i).toNat)
  else none

/-- Modelled from Python `list.index(x)`: position of the first occurrence,
ValueError (here: `none`) if absent. -/
def pyIndex? {α : Type} [DecidableEq α] : List α → α → Option ℕ
  | [], _ => none
  | a :: l, x => if a = x then some 0 else (pyIndex? l x).map (fun n => n + 1)

theorem pyIndex?_mem {α : Type} [DecidableEq α] (l : List α) (x : α) (hx : x ∈ l) :
    ∃ i, pyIndex? l x = some i ∧ l[i]? = some x := by
  induction l with
  | nil => cases hx
  | cons a l ih =>
    by_cases hax : a = x
    · refine ⟨0, ?_, ?_⟩ <;> simp [pyIndex?, hax]
    · have hxl : x ∈ l := by
        cases hx with
        | head => exact absurd rfl hax
        | tail _ h => exact h
      obtain ⟨i, hi, hg⟩ := ih hxl
      exact ⟨i + 1, by simp [pyIndex?, hax, hi], by simpa using hg⟩

/-- Modelled from the region-construction loop of `ImageData.from_yolo_data`
(helpers/augmentation.py lines 111-116), operating on already-parsed lines:
for each line, `class_names[tag_index]` names the tag and the stored region
is `(center_x - width/2, center_y - height/2, width, height)`. -/
def regions_from_yolo : List YoloLine → List String → Option (List ImageDataRegion)
  | [], _ => some []
  | line :: rest, class_names => do
    let tag_name ← pyGetItem class_names line.cls
    let tail ← regions_from_yolo rest class_names
    pure (⟨tag_name, line.center_x - line.width/2, line.center_y - line.height/2,
           line.width, line.height⟩ :: tail)

/-- Modelled from `ImageData.write_yolo` (helpers/augmentation.py lines
161-178): each region becomes the line
`<class_names.index(tag)> <left + width/2> <top + height/2> <width> <height>`;
`list.index` raises (here: `none`) when the tag name is not in the class-name
list. -/
def write_yolo : List ImageDataRegion → List String → Option (List YoloLine)
  | [], _ => some []
  | r :: rs, class_names => do
    let i ← pyIndex? class_names r.tag_name
    let rest ← write_yolo rs class_names
    pure (⟨(i : ℤ), r.left + r.width/2, r.top + r.height/2, r.width, r.height⟩ :: rest)

/-- C2: a parsed YOLO line with in-range class index is stored as the region
with normalized top-left corner (center_x - width/2, center_y - height/2);
to_imgaug scales that corner and the extent (left + width, top + height) by
the image dimensions; and from_imgaug recovers the normalized form of a
pixel-aligned rectangle exactly, by dividing the pixel extents back by the
image dimensions. -/
theorem yolo_line_pixel_rect_correspondence
    (class_names : List String) (k : ℕ) (hk : k < class_names.length)
    (cx cy w h : ℚ) (tag : String) (W H : ℕ) (hW : 0 < W) (hH : 0 < H)
    (a b c d : ℤ) :
    regions_from_yolo [⟨(k : ℤ), cx, cy, w, h⟩] class_names
      = some [⟨class_names[k], cx - w/2, cy - h/2, w, h⟩]
    ∧ ImageDataRegion.to_imgaug ⟨tag, cx - w/2, cy - h/2, w, h⟩ W H
      = ⟨(cx - w/2) * W, (cy - h/2) * H, ((cx - w/2) + w) * W, ((cy - h/2) + h) * H, tag⟩
    ∧ ImageDataRegion.from_imgaug
        (ImageDataRegion.to_imgaug ⟨tag, (a:ℚ)/W, (b:ℚ)/H, ((c:ℚ)-(a:ℚ))/W, ((d:ℚ)-(b:ℚ))/H⟩ W H) W H
      = ⟨tag, (a:ℚ)/W, (b:ℚ)/H, ((c:ℚ)-(a:ℚ))/W, ((d:ℚ)-(b:ℚ))/H⟩ := by
  have hWQ : ((W:ℚ)) ≠ 0 := by positivity
  have hHQ : ((H:ℚ)) ≠ 0 := by positivity
  refine ⟨?_, rfl, ?_⟩
  · simp [regions_from_yolo, pyGetItem, List.getElem?_eq_getElem hk]
  · have hx1 : ((a:ℚ)/W) * W = ((a:ℤ):ℚ) := by field_simp
    have hy1 : ((b:ℚ)/H) * H = ((b:ℤ):ℚ) := by field_simp
    have hx2 : ((a:ℚ)/W + ((c:ℚ)-(a:ℚ))/W) * W = ((c:ℤ):ℚ) := by field_simp
    have hy2 : ((b:ℚ)/H + ((d:ℚ)-(b:ℚ))/H) * H = ((d:ℤ):ℚ) := by field_simp
    simp only [ImageDataRegion.to_imgaug, ImageDataRegion.from_imgaug,
      hx1, hy1, hx2, hy2, np_round_intCast, ImageDataRegion.mk.injEq]
    refine ⟨trivial, trivial, trivial, ?_, ?_⟩ <;> push_cast <;> ring

/-- C2 witness at the class list ["cat", "dog"], index 1, the centered unit
box, a 4 × 2 image, and the pixel rectangle (1, 0) - (3, 2). -/
theorem yolo_line_pixel_rect_correspondence_witness :
    regions_from_yolo [⟨(1 : ℤ), 1/2, 1/2, 1, 1⟩] ["cat", "dog"]
      = some [⟨"dog", 1/2 - 1/2, 1/2 - 1/2, 1, 1⟩] := by
  simpa using (yolo_line_pixel_rect_correspondence ["cat", "dog"] 1 (by norm_num)
    (1/2) (1/2) 1 1 "dog" 4 2 (by norm_num) (by norm_num) 1 0 3 2).1

/-- C4: writing regions whose tag names each occur exactly once in the
class-name list with write_yolo and re-reading the produced lines with the
from_yolo_data region constructor yields exactly the original regions: same
tag names in the same order, identical width and height, and left and top
recovered exactly (the center-to-corner conversion is algebraically
invertible). -/
theorem write_yolo_from_yolo_roundtrip (regions : List ImageDataRegion)
    (class_names : List String)
    (h : ∀ r ∈ regions, class_names.count r.tag_name = 1) :
    ∃ lines, write_yolo regions class_names = some lines
      ∧ regions_from_yolo lines class_names = some regions := by
  induction regions with
  | nil => exact ⟨[], rfl, rfl⟩
  | cons r rs ih =>
    have hr := h r (List.mem_cons_self r rs)
    have hmem : r.tag_name ∈ class_names := List.count_pos_iff.mp (by omega)
    obtain ⟨i, hi, hg⟩ := pyIndex?_mem class_names r.tag_name hmem
    obtain ⟨lines, hw, hrd⟩ := ih (fun x hx => h x (List.mem_cons_of_mem r hx))
    refine ⟨⟨(i:ℤ), r.left + r.width/2, r.top + r.height/2, r.width, r.height⟩ :: lines, ?_, ?_⟩
    · simp [write_yolo, hi, hw]
    · have hget : pyGetItem class_names ((i:ℕ):ℤ) = some r.tag_name := by
        simp [pyGetItem, hg]
      have hl : r.left + r.width/2 - r.width/2 = r.left := by ring
      have ht : r.top + r.height/2 - r.height/2 = r.top := by ring
      cases r
      simp_all [regions_from_yolo]

/-- C4 witness: one region tagged "a" against the class list ["a"]. -/
theorem write_yolo_from_yolo_roundtrip_witness :
    ∃ lines, write_yolo [⟨"a", 0, 0, 1, 1⟩] ["a"] = some lines
      ∧ regions_from_yolo lines ["a"] = some [⟨"a", 0, 0, 1, 1⟩] :=
  write_yolo_from_yolo_roundtrip [⟨"a", 0, 0, 1, 1⟩] ["a"] (by decide)

/-- Modelled from Python `str.rstrip()` whitespace: space, tab, newline,
carriage return, vertical tab, form feed. -/
def pyIsSpace (c : Char) : Bool :=
  c == ' ' || c == '\t' || c == '\n' || c == '\r' || c == Char.ofNat 11 || c == Char.ofNat 12

/-- Modelled from Python `str.rstrip()`: remove trailing whitespace. -/
def pyRstrip (s : String) : String :=
  ⟨(s.data.reverse.dropWhile pyIsSpace).reverse⟩

/-- Modelled from Python `str.strip()`: remove leading and trailing
whitespace (`int(...)` and `float(...)` strip their argument). -/
def pyStrip (s : String) : String :=
  ⟨((s.data.dropWhile pyIsSpace).reverse.dropWhile pyIsSpace).reverse⟩

/-- Modelled from Python `str.split(" ")` on the character list: split at
every single space, keeping empty fragments. -/
def splitSpaceChars : List Char → List (List Char)
  | [] => [[]]
  | c :: rest =>
    if c = ' ' then [] :: splitSpaceChars rest
    else
      match splitSpaceChars rest with
      | [] => [[c]]
      | g :: gs => (c :: g) :: gs

/-- Modelled from Python `line.split(" ")`. -/
def pySplitSpace (s : String) : List String :=
  (splitSpaceChars s.data).map (fun cs => ⟨cs⟩)

/-- Value of a list of decimal digit characters. -/
def decimalDigitsVal (l : List Char) : ℕ :=
  l.foldl (fun acc c => acc * 10 + (c.toNat - 48)) 0

/-- Parse a nonempty all-digit character list. -/
def parseDigits? (l : List Char) : Option ℕ :=
  if !l.isEmpty && l.all Char.isDigit then some (decimalDigitsVal l) else none

/-- Parse an optional sign followed by digits. -/
def parseSignedDigits? : List Char → Option ℤ
  | '-' :: rest => (parseDigits? rest).map (fun n => -(n : ℤ))
  | '+' :: rest => (parseDigits? rest).map (fun n => (n : ℤ))
  | rest => (parseDigits? rest).map (fun n => (n : ℤ))

/-- Modelled from Python `int(str)`: strip whitespace, optional sign,
decimal digits.  Non-decimal forms do not occur in the data files the
scripts exchange. -/
def pyInt? (s : String) : Option ℤ :=
  parseSignedDigits? (pyStrip s).data

/-- Parse an unsigned decimal mantissa: digits, optionally a point and more
digits, at least one digit overall. -/
def parseUnsignedMantissa? (l : List Char) : Option ℚ :=
  let ip := l.takeWhile Char.isDigit
  let rest := l.dropWhile Char.isDigit
  match rest with
  | [] => if ip.isEmpty then none else some ((decimalDigitsVal ip : ℚ))
  | '.' :: fp =>
    if fp.all Char.isDigit && !(ip.isEmpty && fp.isEmpty) then
      some ((decimalDigitsVal ip : ℚ) + (decimalDigitsVal fp : ℚ) / (10:ℚ) ^ fp.length)
    else none
  | _ => none

/-- Parse a signed decimal mantissa. -/
def parseSignedMantissa? : List Char → Option ℚ
  | '-' :: rest => (parseUnsignedMantissa? rest).map (fun q => -q)
  | '+' :: rest => parseUnsignedMantissa? rest
  | rest => parseUnsignedMantissa? rest

/-- Modelled from Python `float(str)` on the decimal forms the scripts
write: strip whitespace, signed mantissa, optional `e`/`E` exponent
(`inf`/`nan` and underscore separators do not occur in the exchanged
files). -/
def pyFloat? (s : String) : Option ℚ :=
  let t := (pyStrip s).data
  let m := t.takeWhile (fun c => c != 'e' && c != 'E')
  match t.dropWhile (fun c => c != 'e' && c != 'E') with
  | [] => parseSignedMantissa? m
  | _ :: etail => do
    let mv ← parseSignedMantissa? m
    let e ← parseSignedDigits? etail
    pure (mv * (10:ℚ) ^ e)

/-- Modelled from one iteration of the `ImageData.from_yolo_data` loop
(helpers/augmentation.py lines 111-115): split the line on single spaces,
`int(...)` the first element, `float(...)` the remaining exactly four
elements. -/
def parse_yolo_line (line : String) : Option YoloLine :=
  match pySplitSpace line with
  | [e0, e1, e2, e3, e4] => do
    let k ← pyInt? e0
    let cx ← pyFloat? e1
    let cy ← pyFloat? e2
    let w ← pyFloat? e3
    let h ← pyFloat? e4
    pure ⟨k, cx, cy, w, h⟩
  | _ => none

/-- Parse every line of a data file. -/
def parse_yolo_lines : List String → Option (List YoloLine)
  | [] => some []
  | l :: ls => do
    let y ← parse_yolo_line l
    let ys ← parse_yolo_lines ls
    pure (y :: ys)

/-- Modelled from the line loaders in augment.py (line 130), upload.py
(`LocalData.load_yolo`, lines 65-69) and `ImageData.from_yolo_data` (line
109): keep the lines that are nonempty after stripping trailing whitespace,
stripped. -/
def load_class_names (raw : List String) : List String :=
  (raw.filter (fun l => pyRstrip l != "")).map pyRstrip

/-- Modelled from `ImageData.from_yolo_data` (helpers/augmentation.py lines
104-118) at line granularity: filter and strip the raw lines, then parse
each line and resolve its class index in the class-name list.  The source
parses and resolves in a single loop; in the `Option` model the staging is
equivalent (the result is `none` exactly when some line fails). -/
def from_yolo_data (raw : List String) (class_names : List String) :
    Option (List ImageDataRegion) := do
  let data_lines := (raw.filter (fun l => pyRstrip l != "")).map pyRstrip
  let parsed ← parse_yolo_lines data_lines
  regions_from_yolo parsed class_names

/-- C10: from_yolo_data ignores every line that is blank after stripping
trailing whitespace — a file of only blank lines (and in particular an empty
file) yields zero regions, and deleting a blank line anywhere does not
change the result — and the class-name loaders keep only the non-blank
lines, so class indices are resolved against positions of non-blank lines
of class.names only. -/
theorem from_yolo_data_ignores_blank_lines :
    (∀ raw class_names, (∀ l ∈ raw, pyRstrip l = "") →
      from_yolo_data raw class_names = some [])
    ∧ (∀ raw1 raw2 b class_names, pyRstrip b = "" →
      from_yolo_data (raw1 ++ b :: raw2) class_names
        = from_yolo_data (raw1 ++ raw2) class_names)
    ∧ (∀ raw1 raw2 b, pyRstrip b = "" →
      load_class_names (raw1 ++ b :: raw2) = load_class_names (raw1 ++ raw2)) := by
  refine ⟨?_, ?_, ?_⟩
  · intro raw class_names h
    have hfil : raw.filter (fun l => pyRstrip l != "") = [] := by
      apply List.filter_eq_nil_iff.mpr
      intro a ha
      simp [h a ha]
    simp [from_yolo_data, hfil, parse_yolo_lines, regions_from_yolo]
  · intro raw1 raw2 b class_names hb
    simp [from_yolo_data, List.filter_append, List.filter_cons, hb]
  · intro raw1 raw2 b hb
    simp [load_class_names, List.filter_append, List.filter_cons, hb]

/-- C10 witness: a data file consisting of an empty line and a
whitespace-only line yields zero regions. -/
theorem from_yolo_data_ignores_blank_lines_witness :
    from_yolo_data ["", "  "] ["cat"] = some [] :=
  from_yolo_data_ignores_blank_lines.1 ["", "  "] ["cat"] (by decide)

/-- Modelled from the batching loops of augment.py (lines 167-183) and
upload.py (`upload_local_data`, lines 203-218), carrying the running index:
append the current item to the batch and flush the batch when it reaches
the maximum size or the item is the last one (`i == len(files) - 1`). -/
def batchLoopIdx {α : Type} (maxB n : ℕ) : ℕ → List α → List α → List (List α)
  | _, _, [] => []
  | i, batch, x :: rest =>
    if (batch ++ [x]).length = maxB ∨ i = n - 1 then
      (batch ++ [x]) :: batchLoopIdx maxB n (i+1) [] rest
    else
      batchLoopIdx maxB n (i+1) (batch ++ [x]) rest

/-- Modelled from the same loops: the batch list built from an initially
empty batch, iterating over the whole file list. -/
def makeBatches {α : Type} (maxB : ℕ) (files : List α) : List (List α) :=
  batchLoopIdx maxB files.length 0 [] files

/-- Index-free reformulation of `batchLoopIdx`: the running index only
feeds the `i == len(files) - 1` test, which holds exactly when no items
remain after the current one. -/
def chunkGo {α : Type} (maxB : ℕ) : List α → List α → List (List α)
  | _, [] => []
  | batch, x :: rest =>
    if (batch ++ [x]).length = maxB ∨ rest.isEmpty = true then
      (batch ++ [x]) :: chunkGo maxB [] rest
    else
      chunkGo maxB (batch ++ [x]) rest

theorem batchLoopIdx_eq_chunkGo {α : Type} (maxB n : ℕ) (l : List α) :
    ∀ (i : ℕ) (batch : List α), i + l.length = n →
      batchLoopIdx maxB n i batch l = chunkGo maxB batch l := by
  induction l with
  | nil => intro i batch _; rfl
  | cons x rest ih =>
    intro i batch h
    have hlen : i + (rest.length + 1) = n := by simpa using h
    have hiff : (i = n - 1) ↔ (rest.isEmpty = true) := by
      rw [List.isEmpty_iff, ← List.length_eq_zero]
      omega
    simp only [batchLoopIdx, chunkGo]
    by_cases hc : (batch ++ [x]).length = maxB ∨ i = n - 1
    · have hc2 : (batch ++ [x]).length = maxB ∨ rest.isEmpty = true := by
        rcases hc with h1 | h2
        · exact Or.inl h1
        · exact Or.inr (hiff.mp h2)
      rw [if_pos hc, if_pos hc2]
      rw [ih (i+1) [] (by omega)]
    · have hc2 : ¬((batch ++ [x]).length = maxB ∨ rest.isEmpty = true) := by
        intro hcon
        rcases hcon with h1 | h2
        · exact hc (Or.inl h1)
        · exact hc (Or.inr (hiff.mpr h2))
      rw [if_neg hc, if_neg hc2]
      exact ih (i+1) (batch ++ [x]) (by omega)

theorem chunkGo_ne_nil {α : Type} (maxB : ℕ) (l : List α) :
    ∀ (batch : List α), l ≠ [] → chunkGo maxB batch l ≠ [] := by
  induction l with
  | nil => intro batch h; exact absurd rfl h
  | cons x rest ih =>
    intro batch _
    simp only [chunkGo]
    by_cases hc : (batch ++ [x]).length = maxB ∨ rest.isEmpty = true
    · rw [if_pos hc]; exact List.cons_ne_nil _ _
    · rw [if_neg hc]
      apply ih
      intro hcon
      exact hc (Or.inr (by simp [hcon]))

theorem chunkGo_flatten {α : Type} (maxB : ℕ) (l : List α) :
    ∀ (batch : List α), l ≠ [] → (chunkGo maxB batch l).flatten = batch ++ l := by
  induction l with
  | nil => intro batch h; exact absurd rfl h
  | cons x rest ih =>
    intro batch _
    by_cases hrest : rest = []
    · subst hrest
      simp [chunkGo]
    · simp only [chunkGo]
      by_cases hc : (batch ++ [x]).length = maxB ∨ rest.isEmpty = true
      · rw [if_pos hc]
        simp [ih batch hrest |>.symm, ih [] hrest]  
      · rw [if_neg hc]
        rw [ih (batch ++ [x]) hrest]
        simp

theorem chunkGo_sizes {α : Type} (maxB : ℕ) (hmax : 0 < maxB) (l : List α) :
    ∀ (batch : List α), batch.length < maxB →
      (∀ b ∈ (chunkGo maxB batch l).dropLast, b.length = maxB)
      ∧ (∀ b, (chunkGo maxB batch l).getLast? = some b →
          0 < b.length ∧ b.length ≤ maxB) := by
  induction l with
  | nil =>
    intro batch _
    constructor
    · intro b hb; simp [chunkGo] at hb
    · intro b hb; simp [chunkGo] at hb
  | cons x rest ih =>
    intro batch hbatch
    by_cases hrest : rest = []
    · subst hrest
      have hc : (batch ++ [x]).length = maxB ∨ ([] : List α).isEmpty = true :=
        Or.inr rfl
      simp only [chunkGo, if_pos hc]
      constructor
      · intro b hb; simp at hb
      · intro b hb
        simp only [List.getLast?_singleton, Option.some.injEq] at hb
        subst hb
        simp only [List.length_append, List.length_singleton]
        omega
    · by_cases hflush : (batch ++ [x]).length = maxB
      · have hc : (batch ++ [x]).length = maxB ∨ rest.isEmpty = true := Or.inl hflush
        simp only [chunkGo, if_pos hc]
        obtain ⟨z, zs, hz⟩ := List.exists_cons_of_ne_nil (chunkGo_ne_nil maxB rest [] hrest)
        have ihrec := ih [] (by simpa using hmax)
        rw [hz] at ihrec ⊢
        constructor
        · intro b hb
          rw [List.dropLast_cons₂] at hb
          rcases List.mem_cons.mp hb with hb1 | hb2
          · rw [hb1]; exact hflush
          · exact ihrec.1 b hb2
        · intro b hb
          rw [List.getLast?_cons_cons] at hb
          exact ihrec.2 b hb
      · have hc : ¬((batch ++ [x]).length = maxB ∨ rest.isEmpty = true) := by
          intro hcon
          rcases hcon with h1 | h2
          · exact hflush h1
          · exact hrest (List.isEmpty_iff.mp h2)
        simp only [chunkGo, if_neg hc]
        apply ih
        have : (batch ++ [x]).length = batch.length + 1 := by simp
        omega

/-- Modelled from augment.py line 169:
`MAX_BATCH_SIZE = 10 if user_requested_preview_only else 100`. -/
def augment_max_batch_size (user_requested_preview_only : Bool) : ℕ :=
  if user_requested_preview_only then 10 else 100

/-- Modelled from upload.py line 21: the Custom Vision upload batch limit. -/
def max_upload_batch_size : ℕ := 64

/-- C5: with any of the fixed batch sizes the scripts use (100 in
augment.py, 10 in preview mode, 64 in upload.py), the batching loop
partitions the input list into consecutive batches whose concatenation is
the original list, every batch except possibly the last has exactly the
maximum size, the last batch has between 1 and the maximum items, and an
empty input yields zero batches. -/
theorem batching_partitions_input {α : Type} (files : List α) (maxB : ℕ)
    (hmax : maxB = augment_max_batch_size true ∨ maxB = augment_max_batch_size false
      ∨ maxB = max_upload_batch_size) :
    (makeBatches maxB files).flatten = files
    ∧ (∀ b ∈ (makeBatches maxB files).dropLast, b.length = maxB)
    ∧ (∀ b, (makeBatches maxB files).getLast? = some b →
        0 < b.length ∧ b.length ≤ maxB)
    ∧ (files = [] → makeBatches maxB files = []) := by
  have hpos : 0 < maxB := by
    rcases hmax with h | h | h <;> rw [h] <;> decide
  have hmk : makeBatches maxB files = chunkGo maxB [] files :=
    batchLoopIdx_eq_chunkGo maxB files.length files 0 [] (by simp)
  have hsizes := chunkGo_sizes maxB hpos files [] (by simpa using hpos)
  refine ⟨?_, ?_, ?_, ?_⟩
  · by_cases hfiles : files = []
    · subst hfiles; rw [hmk]; rfl
    · rw [hmk, chunkGo_flatten maxB files [] hfiles]; rfl
  · rw [hmk]; exact hsizes.1
  · rw [hmk]; exact hsizes.2
  · intro h; subst h; rw [hmk]; rfl

/-- C5 witness: three items batched with the upload batch size 64 form a
single batch equal to the whole list. -/
theorem batching_partitions_input_witness :
    (makeBatches max_upload_batch_size [10, 20, 30]).flatten = [10, 20, 30] :=
  (batching_partitions_input [10, 20, 30] max_upload_batch_size
    (Or.inr (Or.inr rfl))).1

theorem makeBatches_flatten {α : Type} (maxB : ℕ) (files : List α) :
    (makeBatches maxB files).flatten = files := by
  have hmk : makeBatches maxB files = chunkGo maxB [] files :=
    batchLoopIdx_eq_chunkGo maxB files.length files 0 [] (by simp)
  rw [hmk]
  by_cases h : files = []
  · subst h; rfl
  · rw [chunkGo_flatten maxB files [] h]; rfl

theorem flatMap_map_eq_flatten_map {α β : Type} (L : List (List α)) (g : α → β) :
    L.flatMap (fun b => b.map g) = L.flatten.map g := by
  induction L with
  | nil => rfl
  | cons b L ih => simp [ih]

/-- Modelled from augment.py, class `Augment` (lines 21-39), restricted to
the fields the write loop reads: the operation's name and its repetition
count. -/
structure AugOp where
  name : String
  num_repetitions : ℕ
deriving DecidableEq

/-- Modelled from augment.py lines 210-215: the base name for the output
image and data files is the input image's stem joined with the operation
name, plus a `_rep<i>` suffix exactly when the operation has more than one
repetition. -/
def base_filename (image_filename_no_extension : String) (op : AugOp) (rep : ℕ) : String :=
  if op.num_repetitions = 1 then image_filename_no_extension ++ "_" ++ op.name
  else image_filename_no_extension ++ "_" ++ op.name ++ "_rep" ++ toString rep

/-- Modelled from augment.py line 218 (`os.path.join` with a `/`
separator). -/
def output_image_path (output_directory stem image_extension : String)
    (op : AugOp) (rep : ℕ) : String :=
  output_directory ++ "/" ++ base_filename stem op rep ++ image_extension

/-- Modelled from augment.py line 222. -/
def output_data_path (output_directory stem : String) (op : AugOp) (rep : ℕ) : String :=
  output_directory ++ "/" ++ base_filename stem op rep ++ ".txt"

/-- Modelled from the write loop of augment.py `main` (lines 189-231,
non-preview path): for each operation, for each repetition index, for each
batch produced by the batching loop, for each item of the batch, one output
image path and one matching data-file path are written. -/
def augment_run_writes (output_directory image_extension : String)
    (ops : List AugOp) (stems : List String) : List (String × String) :=
  ops.flatMap (fun op =>
    (List.range op.num_repetitions).flatMap (fun i =>
      (makeBatches (augment_max_batch_size false) stems).flatMap (fun batch =>
        batch.map (fun stem =>
          (output_image_path output_directory stem image_extension op i,
           output_data_path output_directory stem op i)))))

/-- C7: a completed (non-preview) run writes exactly one image/data path
pair per (operation, repetition index, input image) triple, in that nested
order with images in input order; and the paths are determined solely by
the image base name, the operation's name and — only when the operation has
more than one repetition — the repetition index. -/
theorem augment_writes_per_op_rep_image (output_directory image_extension : String)
    (ops : List AugOp) (stems : List String) :
    augment_run_writes output_directory image_extension ops stems
      = ops.flatMap (fun op =>
          (List.range op.num_repetitions).flatMap (fun i =>
            stems.map (fun stem =>
              (output_image_path output_directory stem image_extension op i,
               output_data_path output_directory stem op i))))
    ∧ (∀ stem (op1 op2 : AugOp) (i j : ℕ), op1.name = op2.name →
        op1.num_repetitions = 1 → op2.num_repetitions = 1 →
        base_filename stem op1 i = base_filename stem op2 j)
    ∧ (∀ stem (op1 op2 : AugOp) (i : ℕ), op1.name = op2.name →
        op1.num_repetitions ≠ 1 → op2.num_repetitions ≠ 1 →
        base_filename stem op1 i = base_filename stem op2 i) := by
  refine ⟨?_, ?_, ?_⟩
  · simp only [augment_run_writes]
    congr 1
    funext op
    congr 1
    funext i
    rw [flatMap_map_eq_flatten_map, makeBatches_flatten]
  · intro stem op1 op2 i j hname h1 h2
    simp [base_filename, h1, h2, hname]
  · intro stem op1 op2 i hname h1 h2
    simp [base_filename, h1, h2, hname]

/-- C7 witness: an operation with a single repetition produces the same
base filename for any repetition index. -/
theorem augment_writes_per_op_rep_image_witness :
    base_filename "0" ⟨"AdditiveGaussianNoise", 1⟩ 0
      = base_filename "0" ⟨"AdditiveGaussianNoise", 1⟩ 7 :=
  (augment_writes_per_op_rep_image "out" ".jpg" [] []).2.1
    "0" ⟨"AdditiveGaussianNoise", 1⟩ ⟨"AdditiveGaussianNoise", 1⟩ 0 7 rfl rfl rfl

/-- Modelled from the Custom Vision SDK `ImageCreateStatus` values the
upload script compares against, plus the error statuses the service can
return. -/
inductive ImageCreateStatus where
  | ok
  | okDuplicate
  | errorSource
  | errorImageFormat
  | errorImageSize
  | errorStorage
  | errorLimitExceed
deriving DecidableEq

/-- Text of a status, as interpolated into the error message. -/
def statusText : ImageCreateStatus → String
  | ImageCreateStatus.ok => "OK"
  | ImageCreateStatus.okDuplicate => "OKDuplicate"
  | ImageCreateStatus.errorSource => "ErrorSource"
  | ImageCreateStatus.errorImageFormat => "ErrorImageFormat"
  | ImageCreateStatus.errorImageSize => "ErrorImageSize"
  | ImageCreateStatus.errorStorage => "ErrorStorage"
  | ImageCreateStatus.errorLimitExceed => "ErrorLimitExceed"

/-- Modelled from one element of `upload_result.images`: per-image creation
status and source URL. -/
structure ImageCreateResult where
  status : ImageCreateStatus
  source_url : String
deriving DecidableEq

/-- Modelled from the result object of
`trainer.create_images_from_files`: the overall success flag and the
per-image results. -/
structure ImageCreateSummary where
  is_batch_successful : Bool
  images : List ImageCreateResult
deriving DecidableEq

/-- Modelled from `process_batch` in upload.py (lines 140-168): results
with status `ok_duplicate` are counted as duplicates and ignored, results
with any other non-`ok` status are collected as errors, and an exception
carrying the assembled message is raised exactly when the batch was not
successful and the error list is nonempty (duplicates alone never raise;
they only produce a printed notice). -/
def process_batch (upload_result : ImageCreateSummary) : Except String Unit :=
  let error_results := upload_result.images.filter
    (fun r => !(r.status == ImageCreateStatus.okDuplicate)
      && !(r.status == ImageCreateStatus.ok))
  if upload_result.is_batch_successful = false ∧ error_results ≠ [] then
    Except.error (error_results.foldl
      (fun m r => m ++ " url: " ++ r.source_url ++ " -- status: " ++ statusText r.status)
      "Batch did not upload successfully!")
  else
    Except.ok ()

/-- Modelled from the batch-upload loop of `upload_local_data` (upload.py
lines 210-218): each flushed batch is uploaded exactly once inside
`try: process_batch(...) except Exception as e: print(...)`, so an
exception is printed and the loop proceeds to the next batch; nothing is
retried.  The outcome list records, per batch in order, the printed
exception message if one was raised. -/
def upload_batches_outcomes (batch_results : List ImageCreateSummary) : List (Option String) :=
  batch_results.map (fun ur =>
    match process_batch ur with
    | Except.error e => some e
    | Except.ok _ => none)

/-- Modelled from `register_tag_names` (upload.py lines 122-138): each tag
name is passed to `trainer.create_tag` exactly once inside
`try: ... except CustomVisionErrorException as e: print(...)`; a failure
(already-registered tag) is printed and the loop proceeds to the next tag;
nothing is retried.  The argument records the outcome the SDK produced for
each tag in order. -/
def register_tag_names_outcomes (create_tag_results : List (Except String Unit)) :
    List (Option String) :=
  create_tag_results.map (fun r =>
    match r with
    | Except.error e => some e
    | Except.ok _ => none)

/-- C6: process_batch raises if and only if the batch result is
unsuccessful and some image result has a status other than ok or
ok_duplicate; a batch whose image results are all ok or ok_duplicate never
raises; and both the batch-upload loop and the tag-creation loop catch
every exception and proceed, producing exactly one recorded outcome per
batch and per tag — no retries, no early stop. -/
theorem process_batch_raises_iff :
    (∀ ur : ImageCreateSummary,
      (∃ e, process_batch ur = Except.error e)
        ↔ (ur.is_batch_successful = false
            ∧ ∃ r ∈ ur.images, r.status ≠ ImageCreateStatus.ok
                ∧ r.status ≠ ImageCreateStatus.okDuplicate))
    ∧ (∀ ur : ImageCreateSummary,
        (∀ r ∈ ur.images, r.status = ImageCreateStatus.ok
          ∨ r.status = ImageCreateStatus.okDuplicate) →
        process_batch ur = Except.ok ())
    ∧ (∀ batch_results,
        (upload_batches_outcomes batch_results).length = batch_results.length)
    ∧ (∀ create_tag_results,
        (register_tag_names_outcomes create_tag_results).length
          = create_tag_results.length) := by
  have hmem : ∀ (ur : ImageCreateSummary),
      (ur.images.filter (fun r => !(r.status == ImageCreateStatus.okDuplicate)
        && !(r.status == ImageCreateStatus.ok)) ≠ [])
      ↔ ∃ r ∈ ur.images, r.status ≠ ImageCreateStatus.ok
          ∧ r.status ≠ ImageCreateStatus.okDuplicate := by
    intro ur
    constructor
    · intro hne
      rcases List.exists_mem_of_ne_nil _ hne with ⟨r, hr⟩
      rcases List.mem_filter.mp hr with ⟨hrm, hrp⟩
      simp only [Bool.and_eq_true, Bool.not_eq_true', beq_eq_false_iff_ne] at hrp
      exact ⟨r, hrm, hrp.2, hrp.1⟩
    · intro ⟨r, hrm, hok, hdup⟩
      intro hnil
      have := List.filter_eq_nil_iff.mp hnil r hrm
      simp only [Bool.and_eq_true, Bool.not_eq_true', beq_eq_false_iff_ne] at this
      exact this ⟨hdup, hok⟩
  refine ⟨?_, ?_, ?_, ?_⟩
  · intro ur
    simp only [process_batch]
    split_ifs with hcond
    · simp only [Except.error.injEq, exists_eq']
      exact (iff_of_true trivial ⟨hcond.1, (hmem ur).mp hcond.2⟩)
    · constructor
      · intro ⟨e, he⟩
        exact absurd he (by simp)
      · intro ⟨hsucc, hex⟩
        exact absurd ⟨hsucc, (hmem ur).mpr hex⟩ hcond
  · intro ur hall
    simp only [process_batch]
    rw [if_neg]
    intro ⟨_, hne⟩
    apply hne
    apply List.filter_eq_nil_iff.mpr
    intro r hr
    rcases hall r hr with h | h <;> simp [h]
  · intro batch_results
    simp [upload_batches_outcomes]
  · intro create_tag_results
    simp [register_tag_names_outcomes]

/-- C6 witness: a batch marked unsuccessful whose only image results are a
duplicate and an ok never raises an exception. -/
theorem process_batch_raises_iff_witness :
    process_batch ⟨false, [⟨ImageCreateStatus.okDuplicate, "u1"⟩,
      ⟨ImageCreateStatus.ok, "u2"⟩]⟩ = Except.ok () :=
  process_batch_raises_iff.2.1
    ⟨false, [⟨ImageCreateStatus.okDuplicate, "u1"⟩, ⟨ImageCreateStatus.ok, "u2"⟩]⟩
    (by decide)

/-- Modelled from a region of a downloaded image annotation as the Custom
Vision SDK presents it to download.py: tag name plus normalized corner and
extent. -/
structure CVRegion where
  tag_name : String
  left : ℚ
  top : ℚ
  width : ℚ
  height : ℚ
deriving DecidableEq

/-- Total wrapper of Python `list.index`: Python raises ValueError when the
element is absent; at every download.py call site the element was just
ensured present, where `pyIndex?` is `some` and the default is dead. -/
def pyIndexNat {α : Type} [DecidableEq α] (l : List α) (x : α) : ℕ :=
  (pyIndex? l x).getD l.length

theorem pyIndexNat_getElem {α : Type} [DecidableEq α] (l : List α) (x : α) (hx : x ∈ l) :
    l[pyIndexNat l x]? = some x := by
  obtain ⟨i, h1, h2⟩ := pyIndex?_mem l x hx
  simp [pyIndexNat, h1, h2]

/-- Modelled from the region loop of download.py `main` (lines 57-66): if
the tag name is not yet in `unique_tags`, append it; then write the YOLO
line `<unique_tags.index(tag_name)> <left + width/2> <top + height/2>
<width> <height>`. -/
def download_region_step (st : List String × List YoloLine) (r : CVRegion) :
    List String × List YoloLine :=
  let unique_tags := if r.tag_name ∈ st.1 then st.1 else st.1 ++ [r.tag_name]
  (unique_tags,
   st.2 ++ [⟨(pyIndexNat unique_tags r.tag_name : ℤ),
     r.left + r.width/2, r.top + r.height/2, r.width, r.height⟩])

/-- Modelled from download.py lines 55-70: one image produces one data file
whose lines come from its regions in order, threading `unique_tags`
through. -/
def download_image_lines (unique_tags : List String) (regions : List CVRegion) :
    List String × List YoloLine :=
  regions.foldl download_region_step (unique_tags, [])

/-- One step of the image loop: thread the tags and append the finished
data file. -/
def download_image_append (st : List String × List (List YoloLine))
    (regions : List CVRegion) : List String × List (List YoloLine) :=
  let res := download_image_lines st.1 regions
  (res.1, st.2 ++ [res.2])

/-- Modelled from the whole download run (download.py `main`): starting
from an empty `unique_tags`, process every image, producing the final
unique-tag list and one data file per image. -/
def download_all (images : List (List CVRegion)) :
    List String × List (List YoloLine) :=
  images.foldl download_image_append ([], [])

/-- Modelled from download.py lines 86-88: the class.names file content is
the unique tags joined by newlines, in order. -/
def class_names_file_content (unique_tags : List String) : String :=
  String.intercalate "\n" unique_tags

/-- Relation between a region and the data-file line written for it,
relative to a tag list: the line's class index points at the region's tag
name in the list, and the numeric fields are the center-form coordinates of
the region. -/
def line_ok (T : List String) (r : CVRegion) (line : YoloLine) : Prop :=
  ∃ k : ℕ, line.cls = (k : ℤ) ∧ T[k]? = some r.tag_name
    ∧ line.center_x = r.left + r.width/2 ∧ line.center_y = r.top + r.height/2
    ∧ line.width = r.width ∧ line.height = r.height

theorem line_ok_mono (T s : List String) (r : CVRegion) (line : YoloLine)
    (h : line_ok T r line) : line_ok (T ++ s) r line := by
  obtain ⟨k, hcls, hget, hrest⟩ := h
  have hk : k < T.length := by
    by_contra hk
    push_neg at hk
    rw [List.getElem?_eq_none hk] at hget
    exact absurd hget (by simp)
  exact ⟨k, hcls, by rw [List.getElem?_append_left hk]; exact hget, hrest⟩

theorem download_region_step_tags (st : List String × List YoloLine) (r : CVRegion) :
    ∃ s1, (download_region_step st r).1 = st.1 ++ s1 := by
  by_cases hmem : r.tag_name ∈ st.1
  · exact ⟨[], by simp [download_region_step, hmem]⟩
  · exact ⟨[r.tag_name], by simp [download_region_step, hmem]⟩

theorem download_region_step_nodup (st : List String × List YoloLine) (r : CVRegion)
    (h : st.1.Nodup) : (download_region_step st r).1.Nodup := by
  by_cases hmem : r.tag_name ∈ st.1
  · simpa [download_region_step, hmem] using h
  · simp [download_region_step, hmem, List.nodup_append, h]

theorem download_region_step_mem (st : List String × List YoloLine) (r : CVRegion) :
    r.tag_name ∈ (download_region_step st r).1 := by
  by_cases hmem : r.tag_name ∈ st.1 <;> simp [download_region_step, hmem]

theorem download_image_invariant (regs : List CVRegion) :
    ∀ (tags : List String) (acc : List YoloLine), tags.Nodup →
      (regs.foldl download_region_step (tags, acc)).1.Nodup
      ∧ (∃ suffix, (regs.foldl download_region_step (tags, acc)).1 = tags ++ suffix)
      ∧ (∃ newlines, (regs.foldl download_region_step (tags, acc)).2 = acc ++ newlines
          ∧ List.Forall₂ (line_ok (regs.foldl download_region_step (tags, acc)).1)
              regs newlines) := by
  induction regs with
  | nil =>
    intro tags acc h
    exact ⟨h, ⟨[], by simp⟩, ⟨[], by simp, List.Forall₂.nil⟩⟩
  | cons r regs ih =>
    intro tags acc h
    have hstep1 : (download_region_step (tags, acc) r).1.Nodup :=
      download_region_step_nodup (tags, acc) r h
    obtain ⟨s1, hs1⟩ := download_region_step_tags (tags, acc) r
    obtain ⟨hn, ⟨s2, hs2⟩, ⟨newlines, hlines, hok⟩⟩ :=
      ih (download_region_step (tags, acc) r).1 (download_region_step (tags, acc) r).2 hstep1
    have hline2 : (download_region_step (tags, acc) r).2
        = acc ++ [⟨(pyIndexNat (download_region_step (tags, acc) r).1 r.tag_name : ℤ),
            r.left + r.width/2, r.top + r.height/2, r.width, r.height⟩] := by
      by_cases hmem : r.tag_name ∈ tags <;> simp [download_region_step, hmem]
    refine ⟨hn, ⟨s1 ++ s2, ?_⟩, ?_⟩
    · rw [List.foldl_cons, hs2, hs1, List.append_assoc]
    · refine ⟨⟨(pyIndexNat (download_region_step (tags, acc) r).1 r.tag_name : ℤ),
          r.left + r.width/2, r.top + r.height/2, r.width, r.height⟩ :: newlines, ?_, ?_⟩
      · rw [List.foldl_cons, hlines, hline2, List.append_assoc]
        rfl
      · refine List.Forall₂.cons ?_ ?_
        · have hbase : line_ok (download_region_step (tags, acc) r).1 r
              ⟨(pyIndexNat (download_region_step (tags, acc) r).1 r.tag_name : ℤ),
                r.left + r.width/2, r.top + r.height/2, r.width, r.height⟩ :=
            ⟨pyIndexNat (download_region_step (tags, acc) r).1 r.tag_name, rfl,
             pyIndexNat_getElem _ _ (download_region_step_mem (tags, acc) r),
             rfl, rfl, rfl, rfl⟩
          have := line_ok_mono _ s2 _ _ hbase
          rw [← hs2] at this
          simpa [List.foldl_cons] using this
        · simpa [List.foldl_cons] using hok

theorem download_all_invariant (images : List (List CVRegion)) :
    ∀ (tags : List String) (acc : List (List YoloLine)), tags.Nodup →
      (images.foldl download_image_append (tags, acc)).1.Nodup
      ∧ (∃ suffix, (images.foldl download_image_append (tags, acc)).1 = tags ++ suffix)
      ∧ (∃ newfiles, (images.foldl download_image_append (tags, acc)).2 = acc ++ newfiles
          ∧ List.Forall₂ (fun regs f =>
              List.Forall₂ (line_ok (images.foldl download_image_append (tags, acc)).1) regs f)
            images newfiles) := by
  induction images with
  | nil =>
    intro tags acc h
    exact ⟨h, ⟨[], by simp⟩, ⟨[], by simp, List.Forall₂.nil⟩⟩
  | cons regs images ih =>
    intro tags acc h
    obtain ⟨hn1, ⟨s1, hs1⟩, ⟨newlines, hnl, hok1⟩⟩ := download_image_invariant regs tags [] h
    have hdl1 : (download_image_lines tags regs).1.Nodup := hn1
    obtain ⟨hn, ⟨s2, hs2⟩, ⟨newfiles, hnf, hok2⟩⟩ :=
      ih (download_image_lines tags regs).1 (acc ++ [(download_image_lines tags regs).2]) hdl1
    refine ⟨?_, ⟨s1 ++ s2, ?_⟩, ?_⟩
    · simpa [List.foldl_cons, download_image_append] using hn
    · rw [List.foldl_cons]
      show (images.foldl download_image_append
        ((download_image_lines tags regs).1, acc ++ [(download_image_lines tags regs).2])).1
          = tags ++ (s1 ++ s2)
      rw [hs2]
      have : (download_image_lines tags regs).1
          = (regs.foldl download_region_step (tags, [])).1 := rfl
      rw [this, hs1, List.append_assoc]
    · refine ⟨(download_image_lines tags regs).2 :: newfiles, ?_, ?_⟩
      · rw [List.foldl_cons]
        show (images.foldl download_image_append
          ((download_image_lines tags regs).1, acc ++ [(download_image_lines tags regs).2])).2
            = acc ++ ((download_image_lines tags regs).2 :: newfiles)
        rw [hnf, List.append_assoc]
        rfl
      · refine List.Forall₂.cons ?_ ?_
        · have hfile : List.Forall₂ (line_ok (download_image_lines tags regs).1)
              regs (download_image_lines tags regs).2 := by
            have h2 : (download_image_lines tags regs).2 = newlines := by
              simpa [download_image_lines] using hnl
            rw [h2]
            exact hok1
          have hlift : List.Forall₂
              (line_ok ((download_image_lines tags regs).1 ++ s2))
              regs (download_image_lines tags regs).2 :=
            List.Forall₂.imp (fun a b hab => line_ok_mono _ s2 a b hab) hfile
          rw [← hs2] at hlift
          simpa [List.foldl_cons, download_image_append] using hlift
        · simpa [List.foldl_cons, download_image_append] using hok2

/-- C9: over any download run, the unique-tag list never contains a tag
name twice; the data files correspond one-to-one and in order to the
images, each file one line per region in order; every written class index
points, in the final unique-tag list, exactly at that region's tag name;
and the class.names file written at the end is the unique tags joined by
newlines in order — so each written class index is the line number of its
tag in class.names. -/
theorem download_unique_tags_indices (images : List (List CVRegion)) :
    (download_all images).1.Nodup
    ∧ List.Forall₂ (fun regs f =>
        List.Forall₂ (line_ok (download_all images).1) regs f)
        images (download_all images).2
    ∧ class_names_file_content (download_all images).1
        = String.intercalate "\n" (download_all images).1 := by
  obtain ⟨hn, _, ⟨newfiles, hnf, hok⟩⟩ := download_all_invariant images [] [] List.nodup_nil
  refine ⟨hn, ?_, rfl⟩
  have h2 : (download_all images).2 = newfiles := by
    simpa [download_all] using hnf
  rw [h2]
  exact hok

/-- Names bound at module top level by helpers/augmentation.py: its imports
(lines 1-10) and its three class definitions (lines 12, 32, 74).  A
`from helpers.augmentation import X` succeeds exactly when X is in this
list. -/
def helpers_augmentation_module_names : List String :=
  ["os", "json", "argparse", "copyfile", "np", "ia", "BoundingBox",
   "BoundingBoxesOnImage", "iaa", "imageio", "Augment", "ImageDataRegion",
   "ImageData"]

/-- Names augment.py line 19 imports from helpers.augmentation. -/
def augment_imported_from_helpers : List String :=
  ["data_to_ia", "ia_to_data", "ImageData"]

/-- Methods defined on class ImageData in helpers/augmentation.py (lines
74-178). -/
def imageData_method_names : List String :=
  ["__init__", "add_region", "from_yolo_data", "to_imgaug", "from_imagaug",
   "write_yolo"]

/-- Number of non-self parameters of `ImageData.__init__` in
helpers/augmentation.py line 75. -/
def imageData_init_param_count : ℕ := 0

/-- Number of arguments augment.py line 150 passes to the ImageData
constructor: `ImageData(data_path, image_path)`. -/
def augment_imageData_constructor_arg_count : ℕ := 2

/-- C8 refutation (code bug): the helper module does not provide what the
augment script imports and calls.  `data_to_ia` and `ia_to_data` are not
defined anywhere in helpers/augmentation.py, so the import on augment.py
line 19 raises ImportError before `main` ever runs; ImageData's
constructor takes no arguments while augment.py passes two; and the
`populate_regions_from_yolo_data` method called on augment.py line 172
does not exist on ImageData. -/
theorem augment_helper_imports_unresolved :
    ¬ (∀ n ∈ augment_imported_from_helpers, n ∈ helpers_augmentation_module_names)
    ∧ "data_to_ia" ∉ helpers_augmentation_module_names
    ∧ "ia_to_data" ∉ helpers_augmentation_module_names
    ∧ "populate_regions_from_yolo_data" ∉ imageData_method_names
    ∧ augment_imageData_constructor_arg_count ≠ imageData_init_param_count := by
  decide
